import Mathlib

/-!
Verification of the memristor learning-rule core of the repository
`Learning-to-approximate-functions-using-niobium-doped-strontium-titanate-memristors`.

The development shallowly embeds the two source files:
* `src/memristor_nengo/learning_rules.py` — the `mPES` frontend
  (`normalized_conductance`) and the `SimmPES` operator whose `make_step`
  closure holds the power-law device update, the local-error computation and
  the resistance→conductance conversion;
* `src/memristor_learning/MemristorLearningRules.py` — the four rule classes
  `mHopfieldHebbian`, `mOja`, `mBCM`, `mPES` built on a shared `find_spikes`
  gate and on a per-device `Memristor.pulse` call.

Machine floats are embedded as exact rationals/reals; `np.finfo(float).eps`
is the exact rational `2⁻⁵²`.  The `Memristor` device class used by
`MemristorLearningRules.py` is imported from a module that is not part of the
two source files, so it is modelled from the specification (see the
definitions marked `Modelled from the spec`).
-/

namespace Memristors

noncomputable section

/-! ## The SimmPES operator (src/memristor_nengo/learning_rules.py) -/

namespace SimmPES

/-- Power-law exponent `a = -0.1802` fixed inside `SimmPES.make_step`. -/
def aExp : ℝ := -(1802 / 10000)

/-- Lower resistance bound `r_min = 1e2` fixed inside `SimmPES.make_step`. -/
def rMin : ℝ := 100

/-- Upper resistance bound `r_max = 2.5e8` fixed inside `SimmPES.make_step`. -/
def rMax : ℝ := 250000000

/-- `g_min = 1.0 / r_max` from `SimmPES.make_step`. -/
def gMin : ℝ := 1 / rMax

/-- `g_max = 1.0 / r_min` from `SimmPES.make_step`. -/
def gMax : ℝ := 1 / rMin

/-- `gain = 1e6` from `SimmPES.make_step`. -/
def gain : ℝ := 1000000

/-- One power-law pulse applied to a resistance, from `step_simmpes`:
`n = ((R - r_min) / r_max) ** (1 / a)` followed by
`R' = r_min + r_max * (n + 1) ** a`.  At `R = r_min` the float code computes
`n = 0.0 ** (1/a) = inf` (with a runtime warning) and then
`(inf + 1) ** a = 0.0`, so the float result is exactly `r_min`; the
real-valued embedding states that case explicitly because `ℝ` has no `inf`. -/
def pulse (R : ℝ) : ℝ :=
  if R = rMin then rMin
  else rMin + rMax * (((R - rMin) / rMax) ^ (1 / aExp) + 1) ^ aExp

/-- `resistance2conductance` from `step_simmpes`:
`g_norm = (1/R - g_min) / (g_max - g_min)` and `return g_norm * gain`. -/
def resistance2conductance (R : ℝ) : ℝ :=
  ((1 / R - gMin) / (gMax - gMin)) * gain

/-- `local_error = alpha * np.dot(encoders, error)` with
`alpha = -self.learning_rate * dt / n_neurons` from `SimmPES.make_step`. -/
def localError (lr dt : ℝ) (n : ℕ) {m d : ℕ} (encoders : Fin m → Fin d → ℝ)
    (error : Fin d → ℝ) : Fin m → ℝ :=
  fun j => (-lr * dt / n) * ∑ k, encoders j k * error k

/-- `V = np.sign(pes_delta) * 1e-1` where
`pes_delta = np.outer(local_error, pre_filtered)`. -/
def voltage (lr dt : ℝ) {m n d : ℕ} (encoders : Fin m → Fin d → ℝ)
    (pre : Fin n → ℝ) (error : Fin d → ℝ) : Fin m → Fin n → ℝ :=
  fun j i => Real.sign (localError lr dt n encoders error j * pre i) * (1 / 10)

/-- The two per-connection resistance matrices owned by the operator. -/
structure State (m n : ℕ) where
  pos : Fin m → Fin n → ℝ
  neg : Fin m → Fin n → ℝ

/-- One invocation of `step_simmpes`: entries of `pos_memristors` with
`V > 0` and entries of `neg_memristors` with `V < 0` receive one power-law
pulse; all other entries are left untouched. -/
def step (lr dt : ℝ) {m n d : ℕ} (encoders : Fin m → Fin d → ℝ)
    (pre : Fin n → ℝ) (error : Fin d → ℝ) (st : State m n) : State m n where
  pos := fun j i =>
    if 0 < voltage lr dt encoders pre error j i then pulse (st.pos j i) else st.pos j i
  neg := fun j i =>
    if voltage lr dt encoders pre error j i < 0 then pulse (st.neg j i) else st.neg j i

/-- `delta[:] = resistance2conductance(pos) - resistance2conductance(neg)`,
computed from the already-updated matrices. -/
def deltaOut (lr dt : ℝ) {m n d : ℕ} (encoders : Fin m → Fin d → ℝ)
    (pre : Fin n → ℝ) (error : Fin d → ℝ) (st : State m n) : Fin m → Fin n → ℝ :=
  fun j i =>
    resistance2conductance ((step lr dt encoders pre error st).pos j i) -
      resistance2conductance ((step lr dt encoders pre error st).neg j i)

/-- A whole simulation run: the external scheduler invokes the step once per
timestep with fresh activity and error vectors. -/
def run (lr dt : ℝ) {m n d : ℕ} (encoders : Fin m → Fin d → ℝ)
    (inputs : List ((Fin n → ℝ) × (Fin d → ℝ))) (st : State m n) : State m n :=
  inputs.foldl (fun s p => step lr dt encoders p.1 p.2 s) st

end SimmPES

namespace SimmPES

theorem rMax_pos : (0 : ℝ) < rMax := by norm_num [rMax]

theorem rMin_lt_rMax : rMin < rMax := by norm_num [rMin, rMax]

theorem aExp_neg : aExp < 0 := by norm_num [aExp]

/-- The pulse count recovered by inverting the power law is exactly the
normalized distance from `r_min`: `n ^ a = (R - r_min) / r_max`. -/
theorem pulse_count_inv {R : ℝ} (h1 : rMin < R) :
    (((R - rMin) / rMax) ^ (1 / aExp)) ^ aExp = (R - rMin) / rMax := by
  have hu : 0 < (R - rMin) / rMax := div_pos (by linarith) rMax_pos
  rw [← Real.rpow_mul hu.le, one_div, inv_mul_cancel₀ (ne_of_lt aExp_neg),
    Real.rpow_one]

/-- Above `r_min` one pulse strictly decreases the resistance. -/
theorem pulse_lt {R : ℝ} (h1 : rMin < R) : pulse R < R := by
  rw [pulse, if_neg (ne_of_gt h1)]
  have hu : 0 < (R - rMin) / rMax := div_pos (by linarith) rMax_pos
  have hn : 0 < ((R - rMin) / rMax) ^ (1 / aExp) := Real.rpow_pos_of_pos hu _
  have hkey : (((R - rMin) / rMax) ^ (1 / aExp) + 1) ^ aExp
      < (((R - rMin) / rMax) ^ (1 / aExp)) ^ aExp :=
    Real.rpow_lt_rpow_of_neg hn (lt_add_one _) aExp_neg
  rw [pulse_count_inv h1] at hkey
  have := mul_lt_mul_of_pos_left hkey rMax_pos
  rw [mul_div_cancel₀ _ (ne_of_gt rMax_pos)] at this
  linarith

/-- A pulsed resistance stays strictly above `r_min`. -/
theorem lt_pulse {R : ℝ} (h1 : rMin < R) : rMin < pulse R := by
  rw [pulse, if_neg (ne_of_gt h1)]
  have hu : 0 < (R - rMin) / rMax := div_pos (by linarith) rMax_pos
  have hn : 0 < ((R - rMin) / rMax) ^ (1 / aExp) := Real.rpow_pos_of_pos hu _
  have hpos : 0 < (((R - rMin) / rMax) ^ (1 / aExp) + 1) ^ aExp :=
    Real.rpow_pos_of_pos (by linarith) _
  nlinarith [rMax_pos]

/-- A device saturated at `r_min` is left at `r_min` by a further pulse. -/
theorem pulse_rMin : pulse rMin = rMin := by rw [pulse, if_pos rfl]

/-- The conversion to conductance is strictly antitone on positive
resistances: lowering the resistance raises the conductance. -/
theorem resistance2conductance_lt {R' R : ℝ} (h0 : 0 < R') (h : R' < R) :
    resistance2conductance R < resistance2conductance R' := by
  have hden : (0 : ℝ) < gMax - gMin := by norm_num [gMax, gMin, rMin, rMax]
  have hgain : (0 : ℝ) < gain := by norm_num [gain]
  have hinv : 1 / R < 1 / R' := one_div_lt_one_div_of_lt h0 h
  unfold resistance2conductance
  have : (1 / R - gMin) / (gMax - gMin) < (1 / R' - gMin) / (gMax - gMin) :=
    div_lt_div_of_pos_right (by linarith) hden
  exact mul_lt_mul_of_pos_right this hgain

/-- Bounds are preserved by a single pulse. -/
theorem pulse_bounds {R : ℝ} (h1 : rMin < R) (h2 : R ≤ rMax) :
    rMin < pulse R ∧ pulse R ≤ rMax :=
  ⟨lt_pulse h1, le_of_lt (lt_of_lt_of_le (pulse_lt h1) h2)⟩

end SimmPES

/-- `mPES.normalized_conductance` from the nengo frontend class
(src/memristor_nengo/learning_rules.py, lines 32–40): `epsilon` is
`np.finfo(float).eps = 2⁻⁵²`, `gain = 1e5`, and the return value is
`gain * (((1/R - 1/r_max) / (1/r_min - 1/r_max)) + epsilon)`. -/
def normalizedConductance (rmin rmax R : ℚ) : ℚ :=
  100000 * (((1 / R - 1 / rmax) / (1 / rmin - 1 / rmax)) + 1 / 2 ^ 52)

/-! ## The legacy rule classes (src/memristor_learning/MemristorLearningRules.py) -/

/-- `np.rint`: round to the nearest integer, ties to the nearest even
integer (IEEE round-half-even, which is what `np.rint` implements).  Away
from exact half-integers this agrees with Mathlib's `round`. -/
def rint (x : ℝ) : ℤ :=
  if Int.fract x = 1 / 2 then (if 2 ∣ ⌊x⌋ then ⌊x⌋ else ⌊x⌋ + 1) else round x

/-- `MemristorLearningRule.find_spikes` with both activity vectors: entry
`(j, i)` of the boolean map is `bool(rint(input_i)) and bool(rint(output_j))`
(the tiled row/column indicator vectors combined with `np.logical_and`). -/
def findSpikes {I O : ℕ} (input : Fin I → ℝ) (output : Fin O → ℝ) :
    Fin O → Fin I → Prop :=
  fun j i => rint (input i) ≠ 0 ∧ rint (output j) ≠ 0

/-- `MemristorLearningRule.find_spikes` without `output_activities`: the
post factor is `np.ones((1, input_size))`, so the map broadcast over the
rows reduces to the pre indicator alone. -/
def findSpikesPre {I O : ℕ} (input : Fin I → ℝ) : Fin O → Fin I → Prop :=
  fun _ i => rint (input i) ≠ 0

instance {I O : ℕ} (input : Fin I → ℝ) (output : Fin O → ℝ) (j : Fin O)
    (i : Fin I) : Decidable (findSpikes input output j i) :=
  inferInstanceAs (Decidable (rint (input i) ≠ 0 ∧ rint (output j) ≠ 0))

instance {I O : ℕ} (input : Fin I → ℝ) (j : Fin O) (i : Fin I) :
    Decidable (findSpikesPre input j i) :=
  inferInstanceAs (Decidable (rint (input i) ≠ 0))

/-- Modelled from the spec: the `Memristor` device class used by
`MemristorLearningRules.py` is imported from a module that is not under
`src/`.  Per §3 and §4.1 of the spec a device's state is its accumulated
pulse count `n` (the resistance is the derived closed form
`R(n) = r_min + r_max·(n+1)^a`), and a `same`-mode pulse moves the state in
the direction that increases conductance when the signed input is positive
and decreases it when negative; a zero input applies no pulse. -/
def pulseSame (d : ℝ) (n : ℤ) : ℤ :=
  if 0 < d then n + 1 else if d < 0 then n - 1 else n

/-- Modelled from the spec: the `inverse` pulse mode of the missing
`Memristor` class, used by the supervised rule — the complement of `same`
(§4.1); a zero input applies no pulse. -/
def pulseInverse (d : ℝ) (n : ℤ) : ℤ :=
  if 0 < d then n - 1 else if d < 0 then n + 1 else n

/-- Modelled from the spec: the conductance value returned by
`Memristor.pulse(..., value="conductance")` of the missing `Memristor`
class — the normalized conductance of the closed-form resistance
`R(n) = r_min + r_max·(n+1)^a` (§4.1), with the process-wide device
constants of §3. -/
def memConductance (n : ℤ) : ℝ :=
  SimmPES.resistance2conductance (SimmPES.rMin + SimmPES.rMax * ((n : ℝ) + 1) ^ SimmPES.aExp)

/-- The mutable state shared by the legacy rule classes: the weight matrix
and one device per synapse slot. -/
structure RuleState (I O : ℕ) where
  weights : Fin O → Fin I → ℝ
  memristors : Fin O → Fin I → ℤ

/-- `np.dot(self.weights, input_activities)`. -/
def matVec {I O : ℕ} (W : Fin O → Fin I → ℝ) (x : Fin I → ℝ) : Fin O → ℝ :=
  fun j => ∑ i, W j i * x i

/-! ### mOja -/

/-- `post_squared = self.alpha * output_activities * output_activities`. -/
def ojaPostSquared (alpha : ℝ) {O : ℕ} (post : Fin O → ℝ) : Fin O → ℝ :=
  fun j => alpha * post j * post j

/-- `forgetting = -self.beta * self.weights * np.expand_dims(post_squared, axis=1)`. -/
def ojaForgetting (alpha beta : ℝ) {I O : ℕ} (W : Fin O → Fin I → ℝ)
    (post : Fin O → ℝ) : Fin O → Fin I → ℝ :=
  fun j i => -beta * W j i * ojaPostSquared alpha post j

/-- `hebbian = np.outer(self.alpha * output_activities, input_activities)`. -/
def ojaHebbian (alpha : ℝ) {I O : ℕ} (post : Fin O → ℝ) (pre : Fin I → ℝ) :
    Fin O → Fin I → ℝ :=
  fun j i => alpha * post j * pre i

/-- `update_direction = hebbian - forgetting` from `mOja.__call__`. -/
def ojaUpdateDirection (alpha beta : ℝ) {I O : ℕ} (W : Fin O → Fin I → ℝ)
    (post : Fin O → ℝ) (pre : Fin I → ℝ) : Fin O → Fin I → ℝ :=
  fun j i => ojaHebbian alpha post pre j i - ojaForgetting alpha beta W post j i

/-- `mOja.__call__`: the dense direction matrix is computed first, then every
gated entry receives one `same`-mode pulse (the loop visits each gated entry
exactly once and writes only that entry), and the output is
`np.dot(self.weights, input_activities)` on the updated weights. -/
def ojaStep (lr dt beta : ℝ) {I O : ℕ} (pre : Fin I → ℝ) (post : Fin O → ℝ)
    (st : RuleState I O) : RuleState I O × (Fin O → ℝ) :=
  let dir := ojaUpdateDirection (lr * dt) beta st.weights post pre
  let mem := fun j i => if findSpikes pre post j i
    then pulseSame (dir j i) (st.memristors j i) else st.memristors j i
  let w := fun j i => if findSpikes pre post j i
    then memConductance (mem j i) else st.weights j i
  (⟨w, mem⟩, matVec w pre)

/-! ### mBCM -/

/-- `update_direction = output_activities - theta` from `mBCM.__call__`. -/
def bcmUpdateDirection {O : ℕ} (post theta : Fin O → ℝ) : Fin O → ℝ :=
  fun j => post j - theta j

/-- `mBCM.__call__`: each gated entry is pulsed with `update_direction[j]`
(`same` mode) and the output is computed from the updated weights. -/
def bcmStep (lr dt : ℝ) {I O : ℕ} (pre : Fin I → ℝ) (post theta : Fin O → ℝ)
    (st : RuleState I O) : RuleState I O × (Fin O → ℝ) :=
  let mem := fun j i => if findSpikes pre post j i
    then pulseSame (bcmUpdateDirection post theta j) (st.memristors j i)
    else st.memristors j i
  let w := fun j i => if findSpikes pre post j i
    then memConductance (mem j i) else st.weights j i
  (⟨w, mem⟩, matVec w pre)

/-! ### mPES (legacy) -/

/-- `error = x[input_size:] if abs(x[input_size:]) > 10**-5 else 0`, on a
one-element error slice. -/
def squashError (e : ℝ) : ℝ := if 1 / 100000 < |e| then e else 0

/-- `local_error = alpha * np.dot(self.encoders, error)` with
`alpha = self.learning_rate * self.dt / self.input_size` from
`mPES.__call__`; `e` is the already-squashed scalar error. -/
def mpesLocalError (lr dt : ℝ) (inSize : ℕ) {O : ℕ} (encoders : Fin O → ℝ)
    (e : ℝ) : Fin O → ℝ :=
  fun j => lr * dt / inSize * (encoders j * e)

/-- Body of `mPES.__call__` once the scalar error `e` has been squashed:
gating uses `find_spikes(input_activities)` (pre only), each gated entry is
pulsed in `inverse` mode with `local_error[j]`, `self.last_error` is set to
the squashed error, and the output is computed from the updated weights. -/
def mpesApply (lr dt : ℝ) {I O : ℕ} (encoders : Fin O → ℝ) (pre : Fin I → ℝ)
    (e : ℝ) (st : RuleState I O) : RuleState I O × ℝ × (Fin O → ℝ) :=
  let le := mpesLocalError lr dt I encoders e
  let mem := fun j i => if findSpikesPre pre j i
    then pulseInverse (le j) (st.memristors j i) else st.memristors j i
  let w := fun j i => if findSpikesPre pre j i
    then memConductance (mem j i) else st.weights j i
  (⟨w, mem⟩, e, matVec w pre)

/-- `mPES.__call__` on the raw error slice `x[input_size:]`.  The squashing
condition `abs(x[input_size:]) > 10**-5` is a NumPy array comparison used as
a Python truth value: for a one-element slice it reduces to the scalar
comparison, for an empty slice it is falsy (so the error is squashed to `0`),
and for a longer slice Python raises
`ValueError: The truth value of an array with more than one element is
ambiguous`, which the embedding returns as `Except.error`. -/
def mpesStep (lr dt : ℝ) {I O : ℕ} (encoders : Fin O → ℝ) (pre : Fin I → ℝ)
    (err : List ℝ) (st : RuleState I O) :
    Except String (RuleState I O × ℝ × (Fin O → ℝ)) :=
  match err with
  | [e] => Except.ok (mpesApply lr dt encoders pre (squashError e) st)
  | [] => Except.ok (mpesApply lr dt encoders pre 0 st)
  | _ => Except.error "ValueError: The truth value of an array with more than one element is ambiguous."

/-! ### mHopfieldHebbian -/

/-- Overwrite one entry of a matrix, as the in-place NumPy element
assignments do. -/
def upd2 {N : ℕ} {α : Type} (M : Fin N → Fin N → α) (j i : Fin N) (v : α) :
    Fin N → Fin N → α :=
  fun j' i' => if j' = j ∧ i' = i then v else M j' i'

/-- The row-major list of all index pairs, the order in which
`np.transpose(np.where(spiked_map))` enumerates the true entries. -/
def allPairs (N : ℕ) : List (Fin N × Fin N) :=
  (List.finRange N) ×ˢ (List.finRange N)

/-- The gated entries visited by the `mHopfieldHebbian.__call__` loop:
`np.transpose(np.where(find_spikes(input, input)))` in row-major order. -/
def hopPairs {N : ℕ} (act : Fin N → ℝ) : List (Fin N × Fin N) :=
  (allPairs N).filter fun p => decide (rint (act p.2) ≠ 0 ∧ rint (act p.1) ≠ 0)

/-- One iteration of the `mHopfieldHebbian.__call__` loop at pair
`(j, i) = (p.1, p.2)`: the diagonal is skipped; otherwise device `(j, i)` is
pulsed (the pulse argument `spiked_map[j, i]` is the boolean `True`, i.e.
`1.0`) and its new conductance is written to `weights[j, i]`, then the
mirrored device `(i, j)` is pulsed and written to `weights[i, j]`. -/
def hopBody {N : ℕ} (st : (Fin N → Fin N → ℝ) × (Fin N → Fin N → ℤ))
    (p : Fin N × Fin N) : (Fin N → Fin N → ℝ) × (Fin N → Fin N → ℤ) :=
  if p.2 = p.1 then st
  else
    let m1 := upd2 st.2 p.1 p.2 (pulseSame 1 (st.2 p.1 p.2))
    let w1 := upd2 st.1 p.1 p.2 (memConductance (m1 p.1 p.2))
    let m2 := upd2 m1 p.2 p.1 (pulseSame 1 (m1 p.2 p.1))
    let w2 := upd2 w1 p.2 p.1 (memConductance (m2 p.2 p.1))
    (w2, m2)

/-- `mHopfieldHebbian.__call__`: fold the loop body over the gated pairs and
return `np.dot(self.weights, input_activities)` on the updated weights. -/
def hopStep {N : ℕ} (act : Fin N → ℝ) (st : RuleState N N) :
    RuleState N N × (Fin N → ℝ) :=
  let res := (hopPairs act).foldl hopBody (st.weights, st.memristors)
  (⟨res.1, res.2⟩, matVec res.1 act)

/-! ### Definitions taken from the specification's words, for comparison
with the definitions above that are taken from the source. -/

/-- The Oja update direction exactly as the spec states it:
`direction = α·post²·outer(post,pre) − β·weight·post²`. -/
def specOjaDirection (alpha beta : ℝ) {I O : ℕ} (W : Fin O → Fin I → ℝ)
    (post : Fin O → ℝ) (pre : Fin I → ℝ) : Fin O → Fin I → ℝ :=
  fun j i => alpha * post j ^ 2 * (post j * pre i) - beta * W j i * post j ^ 2

/-- The supervised local error exactly as the spec states it:
`local_error = (learning_rate·dt/input_size)·(encoders · error)`. -/
def specLocalError (lr dt : ℝ) (inSize : ℕ) {m d : ℕ}
    (encoders : Fin m → Fin d → ℝ) (error : Fin d → ℝ) : Fin m → ℝ :=
  fun j => lr * dt / inSize * ∑ k, encoders j k * error k

/-- The resistance→conductance conversion exactly as the spec states it:
`g(R) = gain · ((1/R − 1/r_max) / (1/r_min − 1/r_max))` with `R` clipped to
`[r_min, r_max]` before conversion and the denominator clamped away from
zero by the fixed machine epsilon `2⁻⁵²` (rational version, for the nengo
frontend's converter). -/
def specConductanceQ (gain rmin rmax R : ℚ) : ℚ :=
  gain * ((1 / max rmin (min R rmax) - 1 / rmax) / max (1 / rmin - 1 / rmax) (1 / 2 ^ 52))

/-- The same spec formula over the reals with the step's device constants,
for the `resistance2conductance` helper inside `SimmPES.make_step`. -/
def specConductanceR (gain R : ℝ) : ℝ :=
  gain * ((1 / max SimmPES.rMin (min R SimmPES.rMax) - 1 / SimmPES.rMax) /
    max (1 / SimmPES.rMin - 1 / SimmPES.rMax) (1 / 2 ^ 52))

/-! ### Concrete instances used to evaluate the theorems -/

/-- A 1×1 legacy crossbar with one fresh device and its weight in sync with
the device state. -/
def cState1 : RuleState 1 1 := ⟨fun _ _ => memConductance 0, fun _ _ => 0⟩

/-- A 2×2 legacy crossbar with fresh devices. -/
def cState2 : RuleState 2 2 := ⟨fun _ _ => memConductance 0, fun _ _ => 0⟩

/-- A 1×1 `SimmPES` device pair at the low end of the initialization range. -/
def cSimm : SimmPES.State 1 1 := ⟨fun _ _ => 100000000, fun _ _ => 100000000⟩

end

/-! ## Shared evaluation lemmas -/

theorem rint_one : rint (1 : ℝ) = 1 := by
  rw [rint, if_neg, round_one]
  rw [Int.fract_one]
  norm_num

theorem rint_zero : rint (0 : ℝ) = 0 := by
  rw [rint, if_neg, round_zero]
  rw [Int.fract_zero]
  norm_num

/-! ## C1: the Oja update direction -/

/-- **C1, counterexample.**  With `α = β = 1`, a 1×1 crossbar, weight `1`,
`pre = post = [1]`, the update-direction matrix computed by `mOja.__call__`
differs from the spec's `α·post²·outer(post,pre) − β·weight·post²` (the code
yields `2`, the spec formula `0`): the code's `forgetting` term already
carries a minus sign and is then subtracted again, so the decay is added. -/
theorem C1_counterexample :
    ojaUpdateDirection 1 1 (fun _ _ : Fin 1 => (1 : ℝ)) (fun _ : Fin 1 => 1)
        (fun _ : Fin 1 => 1) 0 0 ≠
      specOjaDirection 1 1 (fun _ _ : Fin 1 => (1 : ℝ)) (fun _ : Fin 1 => 1)
        (fun _ : Fin 1 => 1) 0 0 := by
  norm_num [ojaUpdateDirection, specOjaDirection, ojaHebbian, ojaForgetting,
    ojaPostSquared]

/-- **C1 (amended).**  For the Oja rule the per-entry update direction passed
to the device model equals `α·post_j·pre_i + β·(α·post_j²)·weight_{j,i}` with
`α = learning_rate·dt`: the Hebbian term is linear (not cubic) in `post`, and
the decay term, scaled by `β·α·post_j²`, is added to — not subtracted from —
the Hebbian term, because `forgetting = -β·weight·(α·post²)` is computed with
a built-in minus sign and then `update_direction = hebbian - forgetting`. -/
theorem C1_oja_direction (alpha beta : ℝ) {I O : ℕ} (W : Fin O → Fin I → ℝ)
    (post : Fin O → ℝ) (pre : Fin I → ℝ) (j : Fin O) (i : Fin I) :
    ojaUpdateDirection alpha beta W post pre j i =
      alpha * post j * pre i + beta * (alpha * post j * post j) * W j i := by
  simp only [ojaUpdateDirection, ojaHebbian, ojaForgetting, ojaPostSquared]
  ring

/-! ## C6: the supervised local-error scale factor -/

/-- **C6, counterexample.**  With `learning_rate = dt = 1`, one neuron,
encoder `[1]` and error `[1]`, the `SimmPES` local error is `-1` while the
claimed `+learning_rate·dt/input_size · (encoders · error)` is `+1`. -/
theorem C6_counterexample :
    SimmPES.localError 1 1 1 (fun _ _ : Fin 1 => (1 : ℝ)) (fun _ : Fin 1 => 1) 0 ≠
      specLocalError 1 1 1 (fun _ _ : Fin 1 => (1 : ℝ)) (fun _ : Fin 1 => 1) 0 := by
  simp only [SimmPES.localError, specLocalError, Fin.sum_univ_one]
  norm_num

/-- **C6 (amended).**  The legacy `mPES.__call__` applies the local error
`(+learning_rate·dt/input_size)·(encoders · error)` exactly as the claim
states, but `SimmPES.make_step` uses `alpha = -learning_rate·dt/n_neurons`,
so its local error is the negation of the claimed quantity. -/
theorem C6_local_error_scale (lr dt : ℝ) :
    (∀ {O : ℕ} (inSize : ℕ) (encoders : Fin O → ℝ) (e : ℝ) (j : Fin O),
      mpesLocalError lr dt inSize encoders e j =
        specLocalError lr dt inSize (fun j' (_ : Fin 1) => encoders j')
          (fun _ => e) j) ∧
    (∀ {m n d : ℕ} (encoders : Fin m → Fin d → ℝ) (error : Fin d → ℝ)
      (j : Fin m),
      SimmPES.localError lr dt n encoders error j =
        -specLocalError lr dt n encoders error j) := by
  constructor
  · intro O inSize encoders e j
    simp only [mpesLocalError, specLocalError, Fin.sum_univ_one]
  · intro m n d encoders error j
    simp only [SimmPES.localError, specLocalError]
    ring

/-! ## C7: the resistance-to-conductance conversion -/

/-- **C7, counterexample.**  At `R = r_min` (inside the claimed domain) the
frontend `normalized_conductance` returns `1e5·(1 + 2⁻⁵²)`, not the claimed
exact `gain·((1/R − 1/r_max)/(1/r_min − 1/r_max)) = 1e5`: the machine epsilon
is added to the normalized ratio itself, a constant output offset. -/
theorem C7_counterexample :
    normalizedConductance 100 250000000 100 ≠
      specConductanceQ 100000 100 250000000 100 := by
  rw [normalizedConductance, specConductanceQ,
    min_eq_left (by norm_num : (100 : ℚ) ≤ 250000000), max_self,
    max_eq_left (by norm_num)]
  norm_num

/-- **C7 (amended).**  On `[r_min, r_max]` the frontend
`normalized_conductance` returns the spec formula **plus** the constant
offset `gain·ε = 1e5·2⁻⁵²` (the epsilon is added to the normalized ratio,
not used to clamp the denominator, and `R` is never clipped), while the
in-step `resistance2conductance` of `SimmPES.make_step` returns exactly the
spec formula with `gain = 1e6` and no epsilon at all. -/
theorem C7_conversion (R : ℚ) (h1 : 100 ≤ R) (h2 : R ≤ 250000000)
    (S : ℝ) (h3 : SimmPES.rMin ≤ S) (h4 : S ≤ SimmPES.rMax) :
    normalizedConductance 100 250000000 R =
      specConductanceQ 100000 100 250000000 R + 100000 / 2 ^ 52 ∧
    SimmPES.resistance2conductance S = specConductanceR 1000000 S := by
  constructor
  · rw [normalizedConductance, specConductanceQ, min_eq_left h2,
      max_eq_right h1, max_eq_left (by norm_num)]
    ring
  · rw [SimmPES.resistance2conductance, specConductanceR, min_eq_left h4,
      max_eq_right h3,
      max_eq_left (by norm_num [SimmPES.rMin, SimmPES.rMax])]
    simp only [SimmPES.gMin, SimmPES.gMax, SimmPES.gain, SimmPES.rMin,
      SimmPES.rMax]
    norm_num
    ring

/-- **C7, witness.**  The amended conversion equalities evaluated at
`R = S = r_min`. -/
theorem C7_witness :
    normalizedConductance 100 250000000 100 =
      specConductanceQ 100000 100 250000000 100 + 100000 / 2 ^ 52 ∧
    SimmPES.resistance2conductance SimmPES.rMin =
      specConductanceR 1000000 SimmPES.rMin :=
  C7_conversion 100 (by norm_num) (by norm_num) SimmPES.rMin (le_refl _)
    (by norm_num [SimmPES.rMin, SimmPES.rMax])

/-! ## C2: gating of the supervised rule -/

/-- Entries whose pre-activity does not round to a spike are untouched by
the legacy supervised step body: neither the device nor the weight is
written. -/
theorem mpesApply_frame {I O : ℕ} (lr dt : ℝ) (encoders : Fin O → ℝ)
    (pre : Fin I → ℝ) (e : ℝ) (st : RuleState I O) (j : Fin O) (i : Fin I)
    (hi : rint (pre i) = 0) :
    (mpesApply lr dt encoders pre e st).1.memristors j i = st.memristors j i ∧
    (mpesApply lr dt encoders pre e st).1.weights j i = st.weights j i := by
  simp [mpesApply, findSpikesPre, hi]

/-- **C2, counterexample.**  A gated entry need not change: with `pre = [1]`
(so `round(pre_0)` is true) but error `[0]`, the step leaves both the device
state and the weight of entry `(0,0)` exactly unchanged, refuting the
claimed "changes weight iff round(pre_i) is true ... for all error values". -/
theorem C2_counterexample :
    rint (1 : ℝ) ≠ 0 ∧
    mpesStep 1 1 (fun _ : Fin 1 => (1 : ℝ)) (fun _ : Fin 1 => (1 : ℝ)) [0]
        cState1 =
      Except.ok (mpesApply 1 1 (fun _ : Fin 1 => (1 : ℝ))
        (fun _ : Fin 1 => (1 : ℝ)) (squashError 0) cState1) ∧
    (mpesApply 1 1 (fun _ : Fin 1 => (1 : ℝ)) (fun _ : Fin 1 => (1 : ℝ))
        (squashError 0) cState1).1.memristors 0 0 = cState1.memristors 0 0 ∧
    (mpesApply 1 1 (fun _ : Fin 1 => (1 : ℝ)) (fun _ : Fin 1 => (1 : ℝ))
        (squashError 0) cState1).1.weights 0 0 = cState1.weights 0 0 := by
  refine ⟨by rw [rint_one]; norm_num, rfl, ?_, ?_⟩
  · norm_num [mpesApply, findSpikesPre, rint_one, squashError, mpesLocalError,
      pulseInverse, cState1]
  · norm_num [mpesApply, findSpikesPre, rint_one, squashError, mpesLocalError,
      pulseInverse, cState1]

/-- **C2 (amended).**  For the legacy supervised rule an entry `(j,i)` can
change only when `round(pre_i)` is nonzero: every entry whose pre-activity
rounds to zero, together with the device state backing it, is exactly
unchanged after the step, for all error values.  (A gated entry is pulsed
but need not change, e.g. under zero local error.) -/
theorem C2_gating_frame {I O : ℕ} (lr dt : ℝ) (encoders : Fin O → ℝ)
    (pre : Fin I → ℝ) (err : List ℝ) (st : RuleState I O)
    (r : RuleState I O × ℝ × (Fin O → ℝ))
    (hok : mpesStep lr dt encoders pre err st = Except.ok r)
    (j : Fin O) (i : Fin I) (hi : rint (pre i) = 0) :
    r.1.memristors j i = st.memristors j i ∧
    r.1.weights j i = st.weights j i := by
  cases err with
  | nil =>
    simp only [mpesStep, Except.ok.injEq] at hok
    rw [← hok]
    exact mpesApply_frame lr dt encoders pre 0 st j i hi
  | cons e t =>
    cases t with
    | nil =>
      simp only [mpesStep, Except.ok.injEq] at hok
      rw [← hok]
      exact mpesApply_frame lr dt encoders pre (squashError e) st j i hi
    | cons e2 t2 =>
      simp only [mpesStep] at hok
      exact Except.noConfusion hok

/-- **C2, witness.**  The frame property evaluated at a concrete non-spiking
input. -/
theorem C2_witness :
    (mpesApply 1 1 (fun _ : Fin 1 => (1 : ℝ)) (fun _ : Fin 1 => (0 : ℝ))
        (squashError 0) cState1).1.memristors 0 0 = cState1.memristors 0 0 ∧
    (mpesApply 1 1 (fun _ : Fin 1 => (1 : ℝ)) (fun _ : Fin 1 => (0 : ℝ))
        (squashError 0) cState1).1.weights 0 0 = cState1.weights 0 0 :=
  C2_gating_frame 1 1 (fun _ : Fin 1 => (1 : ℝ)) (fun _ : Fin 1 => (0 : ℝ))
    [0] cState1 _ rfl 0 0 rint_zero

/-! ## C3: the 1e-5 error-squashing threshold -/

/-- **C3, counterexample.**  `SimmPES.make_step` applies no 1e-5 threshold:
with the incoming error `5e-6` (magnitude strictly below `1e-5`), one
neuron, unit encoder and unit pre-activity, the applied local error is
`-5e-6 ≠ 0` and the negative-branch device state changes during the step. -/
theorem C3_counterexample :
    |(1 / 200000 : ℝ)| < 1 / 100000 ∧
    SimmPES.localError 1 1 1 (fun _ _ : Fin 1 => (1 : ℝ))
      (fun _ : Fin 1 => 1 / 200000) 0 ≠ 0 ∧
    (SimmPES.step 1 1 (fun _ _ : Fin 1 => (1 : ℝ)) (fun _ : Fin 1 => 1)
        (fun _ : Fin 1 => 1 / 200000) cSimm).neg 0 0 ≠ cSimm.neg 0 0 := by
  have hle : SimmPES.localError 1 1 1 (fun _ _ : Fin 1 => (1 : ℝ))
      (fun _ : Fin 1 => 1 / 200000) 0 = -(1 / 200000) := by
    simp only [SimmPES.localError, Fin.sum_univ_one]
    norm_num
  have hv : SimmPES.voltage 1 1 (fun _ _ : Fin 1 => (1 : ℝ))
      (fun _ : Fin 1 => 1) (fun _ : Fin 1 => 1 / 200000) 0 0 = -(1 / 10) := by
    simp only [SimmPES.voltage]
    rw [hle, Real.sign_of_neg (by norm_num)]
    norm_num
  refine ⟨by rw [abs_lt]; constructor <;> norm_num, by rw [hle]; norm_num, ?_⟩
  simp only [SimmPES.step]
  rw [hv, if_pos (by norm_num)]
  show SimmPES.pulse 100000000 ≠ 100000000
  exact ne_of_lt (SimmPES.pulse_lt (by norm_num [SimmPES.rMin]))

/-- **C3 (amended).**  For the legacy `mPES.__call__` (one-element error
slice) an incoming error of magnitude strictly below `1e-5` is squashed to
exactly `0`, the applied local error is exactly `0`, the stored last error
is `0`, no device state changes, and — whenever the weights are in sync with
the device states, as the data model guarantees — no weight changes either.
`SimmPES.make_step` applies no such threshold (see the counterexample). -/
theorem C3_mpes_squash {I O : ℕ} (lr dt : ℝ) (encoders : Fin O → ℝ)
    (pre : Fin I → ℝ) (e : ℝ) (st : RuleState I O)
    (he : |e| < 1 / 100000)
    (hsync : ∀ j i, st.weights j i = memConductance (st.memristors j i)) :
    squashError e = 0 ∧
    (∀ j, mpesLocalError lr dt I encoders (squashError e) j = 0) ∧
    ∀ r, mpesStep lr dt encoders pre [e] st = Except.ok r →
      r.2.1 = 0 ∧
      ∀ j i, r.1.memristors j i = st.memristors j i ∧
        r.1.weights j i = st.weights j i := by
  have hsq : squashError e = 0 := by
    rw [squashError, if_neg (by linarith)]
  have hle : ∀ j, mpesLocalError lr dt I encoders (squashError e) j = 0 := by
    intro j
    rw [hsq]
    simp [mpesLocalError]
  refine ⟨hsq, hle, ?_⟩
  intro r hok
  simp only [mpesStep, Except.ok.injEq] at hok
  rw [← hok]
  refine ⟨hsq, fun j i => ?_⟩
  have hmem : (mpesApply lr dt encoders pre (squashError e) st).1.memristors j i
      = st.memristors j i := by
    simp only [mpesApply]
    split_ifs with h
    · rw [hle j]
      simp [pulseInverse]
    · rfl
  refine ⟨hmem, ?_⟩
  simp only [mpesApply]
  split_ifs with h
  · rw [hle j]
    simp only [pulseInverse, lt_irrefl, if_false]
    exact (hsync j i).symm
  · rfl

/-- **C3, witness.**  The squashing theorem evaluated at the zero error on a
synced 1×1 crossbar. -/
theorem C3_witness :
    |(0 : ℝ)| < 1 / 100000 ∧
    squashError 0 = 0 ∧
    mpesLocalError 1 1 1 (fun _ : Fin 1 => (1 : ℝ)) (squashError 0) 0 = 0 ∧
    (mpesApply 1 1 (fun _ : Fin 1 => (1 : ℝ)) (fun _ : Fin 1 => (1 : ℝ))
        (squashError 0) cState1).1.memristors 0 0 = cState1.memristors 0 0 := by
  have h := C3_mpes_squash 1 1 (fun _ : Fin 1 => (1 : ℝ))
    (fun _ : Fin 1 => (1 : ℝ)) 0 cState1 (by norm_num) (fun j i => rfl)
  exact ⟨by norm_num, h.1, h.2.1 0, ((h.2.2 _ rfl).2 0 0).1⟩

/-! ## C9: ambiguous truth value on longer error slices -/

/-- **C9.**  The legacy supervised step is only defined on an error slice of
at most one element: on any slice with more than one element the array truth
test `abs(x[input_size:]) > 1e-5` raises, so the step yields an error value
instead of an output vector. -/
theorem C9_ambiguous_error {I O : ℕ} (lr dt : ℝ) (encoders : Fin O → ℝ)
    (pre : Fin I → ℝ) (err : List ℝ) (st : RuleState I O)
    (h : 1 < err.length) :
    ∃ msg, mpesStep lr dt encoders pre err st = Except.error msg := by
  cases err with
  | nil => simp at h
  | cons e1 t1 =>
    cases t1 with
    | nil => simp at h
    | cons e2 t2 => exact ⟨_, rfl⟩

/-- **C9, witness.**  A two-element error slice raises. -/
theorem C9_witness :
    ∃ msg, mpesStep 1 1 (fun _ : Fin 1 => (1 : ℝ)) (fun _ : Fin 1 => (1 : ℝ))
      [0, 0] cState1 = Except.error msg :=
  C9_ambiguous_error 1 1 (fun _ : Fin 1 => (1 : ℝ)) (fun _ : Fin 1 => (1 : ℝ))
    [0, 0] cState1 (by norm_num)

/-! ## C4: the resistance bounds invariant -/

/-- One `SimmPES` step keeps every device of both branch matrices strictly
above `r_min` and at most `r_max`: each entry either receives one power-law
pulse or is untouched. -/
theorem simm_step_bounds (lr dt : ℝ) {m n d : ℕ} (encoders : Fin m → Fin d → ℝ)
    (pre : Fin n → ℝ) (error : Fin d → ℝ) (st : SimmPES.State m n)
    (h : ∀ j i, (SimmPES.rMin < st.pos j i ∧ st.pos j i ≤ SimmPES.rMax) ∧
      (SimmPES.rMin < st.neg j i ∧ st.neg j i ≤ SimmPES.rMax)) :
    ∀ j i,
      (SimmPES.rMin < (SimmPES.step lr dt encoders pre error st).pos j i ∧
        (SimmPES.step lr dt encoders pre error st).pos j i ≤ SimmPES.rMax) ∧
      (SimmPES.rMin < (SimmPES.step lr dt encoders pre error st).neg j i ∧
        (SimmPES.step lr dt encoders pre error st).neg j i ≤ SimmPES.rMax) := by
  intro j i
  constructor
  · simp only [SimmPES.step]
    split_ifs with hV
    · exact SimmPES.pulse_bounds ((h j i).1).1 ((h j i).1).2
    · exact (h j i).1
  · simp only [SimmPES.step]
    split_ifs with hV
    · exact SimmPES.pulse_bounds ((h j i).2).1 ((h j i).2).2
    · exact (h j i).2

/-- A whole run keeps every device of both branch matrices inside the
bounds. -/
theorem simm_run_bounds (lr dt : ℝ) {m n d : ℕ} (encoders : Fin m → Fin d → ℝ)
    (inputs : List ((Fin n → ℝ) × (Fin d → ℝ))) (st : SimmPES.State m n)
    (h : ∀ j i, (SimmPES.rMin < st.pos j i ∧ st.pos j i ≤ SimmPES.rMax) ∧
      (SimmPES.rMin < st.neg j i ∧ st.neg j i ≤ SimmPES.rMax)) :
    ∀ j i,
      (SimmPES.rMin < (SimmPES.run lr dt encoders inputs st).pos j i ∧
        (SimmPES.run lr dt encoders inputs st).pos j i ≤ SimmPES.rMax) ∧
      (SimmPES.rMin < (SimmPES.run lr dt encoders inputs st).neg j i ∧
        (SimmPES.run lr dt encoders inputs st).neg j i ≤ SimmPES.rMax) := by
  induction inputs generalizing st with
  | nil => exact h
  | cons p rest ih =>
    exact ih (SimmPES.step lr dt encoders p.1 p.2 st)
      (simm_step_bounds lr dt encoders p.1 p.2 st h)

/-- **C4.**  Devices initialized anywhere in the sampling sub-range
`[1e8, 1.1e8]` satisfy `r_min ≤ R ≤ r_max`, and after every timestep of
every input sequence all devices of both branch matrices still satisfy
`r_min ≤ R ≤ r_max`: initialization and every pulse application keep the
resistance inside the bounds (in fact the power-law update provably maps
`(r_min, r_max]` into itself, so no value ever falls outside). -/
theorem C4_bounds_invariant (lr dt : ℝ) {m n d : ℕ}
    (encoders : Fin m → Fin d → ℝ) (st : SimmPES.State m n)
    (hpos : ∀ j i, 100000000 ≤ st.pos j i ∧ st.pos j i ≤ 110000000)
    (hneg : ∀ j i, 100000000 ≤ st.neg j i ∧ st.neg j i ≤ 110000000)
    (inputs : List ((Fin n → ℝ) × (Fin d → ℝ))) :
    ∀ j i,
      (SimmPES.rMin ≤ st.pos j i ∧ st.pos j i ≤ SimmPES.rMax) ∧
      (SimmPES.rMin ≤ (SimmPES.run lr dt encoders inputs st).pos j i ∧
        (SimmPES.run lr dt encoders inputs st).pos j i ≤ SimmPES.rMax) ∧
      (SimmPES.rMin ≤ (SimmPES.run lr dt encoders inputs st).neg j i ∧
        (SimmPES.run lr dt encoders inputs st).neg j i ≤ SimmPES.rMax) := by
  have hinit : ∀ j i,
      (SimmPES.rMin < st.pos j i ∧ st.pos j i ≤ SimmPES.rMax) ∧
      (SimmPES.rMin < st.neg j i ∧ st.neg j i ≤ SimmPES.rMax) := by
    intro j i
    have h1 := hpos j i
    have h2 := hneg j i
    constructor
    · constructor
      · calc SimmPES.rMin < 100000000 := by norm_num [SimmPES.rMin]
          _ ≤ st.pos j i := h1.1
      · calc st.pos j i ≤ 110000000 := h1.2
          _ ≤ SimmPES.rMax := by norm_num [SimmPES.rMax]
    · constructor
      · calc SimmPES.rMin < 100000000 := by norm_num [SimmPES.rMin]
          _ ≤ st.neg j i := h2.1
      · calc st.neg j i ≤ 110000000 := h2.2
          _ ≤ SimmPES.rMax := by norm_num [SimmPES.rMax]
  intro j i
  have hrun := simm_run_bounds lr dt encoders inputs st hinit j i
  exact ⟨⟨le_of_lt ((hinit j i).1).1, ((hinit j i).1).2⟩,
    ⟨le_of_lt (hrun.1).1, (hrun.1).2⟩, ⟨le_of_lt (hrun.2).1, (hrun.2).2⟩⟩

/-- **C4, witness.**  The bounds invariant evaluated on a concrete 1×1 pair
of device matrices initialized at `1e8` and driven for one step. -/
theorem C4_witness :
    SimmPES.rMin ≤ (SimmPES.run 1 1 (fun _ _ : Fin 1 => (1 : ℝ))
        [(fun _ => 1, fun _ => 1)] cSimm).pos 0 0 ∧
    (SimmPES.run 1 1 (fun _ _ : Fin 1 => (1 : ℝ))
        [(fun _ => 1, fun _ => 1)] cSimm).pos 0 0 ≤ SimmPES.rMax :=
  ((C4_bounds_invariant 1 1 (fun _ _ : Fin 1 => (1 : ℝ)) cSimm
    (fun j i => ⟨le_refl _, by norm_num [cSimm]⟩)
    (fun j i => ⟨le_refl _, by norm_num [cSimm]⟩)
    [(fun _ => 1, fun _ => 1)] 0 0).2).1

/-! ## C5: monotone conductance drift and saturation -/

/-- **C5.**  For `r_min < R ≤ r_max` one power-law pulse strictly decreases
the resistance (hence strictly increases the converted conductance) while
staying strictly above `r_min`; a device saturated at `r_min` is left
exactly at `r_min` by a further pulse — idempotent and never below
`r_min`. -/
theorem C5_pulse_monotone (R : ℝ) :
    (SimmPES.rMin < R → R ≤ SimmPES.rMax →
      SimmPES.pulse R < R ∧ SimmPES.rMin < SimmPES.pulse R ∧
      SimmPES.resistance2conductance R <
        SimmPES.resistance2conductance (SimmPES.pulse R)) ∧
    SimmPES.pulse SimmPES.rMin = SimmPES.rMin ∧
    SimmPES.rMin ≤ SimmPES.pulse SimmPES.rMin := by
  refine ⟨fun h1 h2 => ?_, SimmPES.pulse_rMin, le_of_eq SimmPES.pulse_rMin.symm⟩
  have hlt := SimmPES.pulse_lt h1
  have hgt := SimmPES.lt_pulse h1
  have hpos : (0 : ℝ) < SimmPES.pulse R := by
    have : (0 : ℝ) < SimmPES.rMin := by norm_num [SimmPES.rMin]
    linarith
  exact ⟨hlt, hgt, SimmPES.resistance2conductance_lt hpos hlt⟩

/-- **C5, witness.**  One pulse strictly decreases a device at `r_max`, and
a device at `r_min` is left at `r_min`. -/
theorem C5_witness :
    SimmPES.pulse 250000000 < 250000000 ∧
    SimmPES.pulse SimmPES.rMin = SimmPES.rMin := by
  have h := C5_pulse_monotone 250000000
  exact ⟨(h.1 (by norm_num [SimmPES.rMin]) (by norm_num [SimmPES.rMax])).1, h.2.1⟩

/-! ## C8: the returned vector is computed on the updated weights -/

/-- **C8.**  Every rule's step returns exactly
`WeightMatrix · pre_activities` where `WeightMatrix` is the weight matrix
after that step's update: for `mHopfieldHebbian`, `mOja` and `mBCM`
unconditionally, and for the legacy `mPES` whenever the step returns an
output at all. -/
theorem C8_output_after_update :
    (∀ {N : ℕ} (act : Fin N → ℝ) (st : RuleState N N),
      (hopStep act st).2 = matVec (hopStep act st).1.weights act) ∧
    (∀ {I O : ℕ} (lr dt beta : ℝ) (pre : Fin I → ℝ) (post : Fin O → ℝ)
      (st : RuleState I O),
      (ojaStep lr dt beta pre post st).2 =
        matVec (ojaStep lr dt beta pre post st).1.weights pre) ∧
    (∀ {I O : ℕ} (lr dt : ℝ) (pre : Fin I → ℝ) (post theta : Fin O → ℝ)
      (st : RuleState I O),
      (bcmStep lr dt pre post theta st).2 =
        matVec (bcmStep lr dt pre post theta st).1.weights pre) ∧
    (∀ {I O : ℕ} (lr dt : ℝ) (encoders : Fin O → ℝ) (pre : Fin I → ℝ)
      (err : List ℝ) (st : RuleState I O) (r : RuleState I O × ℝ × (Fin O → ℝ)),
      mpesStep lr dt encoders pre err st = Except.ok r →
      r.2.2 = matVec r.1.weights pre) := by
  refine ⟨?_, ?_, ?_, ?_⟩
  · intro N act st
    rfl
  · intro I O lr dt beta pre post st
    rfl
  · intro I O lr dt pre post theta st
    rfl
  · intro I O lr dt encoders pre err st r hok
    cases err with
    | nil =>
      simp only [mpesStep, Except.ok.injEq] at hok
      rw [← hok]
      rfl
    | cons e t =>
      cases t with
      | nil =>
        simp only [mpesStep, Except.ok.injEq] at hok
        rw [← hok]
        rfl
      | cons e2 t2 =>
        simp only [mpesStep] at hok
        exact Except.noConfusion hok

/-- **C8, witness.**  The contract evaluated on a concrete 2×2 Hopfield step
and a concrete 1×1 legacy supervised step. -/
theorem C8_witness :
    (hopStep (fun _ : Fin 2 => (1 : ℝ)) cState2).2 =
      matVec (hopStep (fun _ : Fin 2 => (1 : ℝ)) cState2).1.weights
        (fun _ => 1) ∧
    (mpesApply 1 1 (fun _ : Fin 1 => (1 : ℝ)) (fun _ : Fin 1 => (1 : ℝ))
        (squashError 0) cState1).2.2 =
      matVec (mpesApply 1 1 (fun _ : Fin 1 => (1 : ℝ))
        (fun _ : Fin 1 => (1 : ℝ)) (squashError 0) cState1).1.weights
        (fun _ => 1) :=
  ⟨C8_output_after_update.1 (fun _ : Fin 2 => (1 : ℝ)) cState2,
    C8_output_after_update.2.2.2 1 1 (fun _ : Fin 1 => (1 : ℝ))
      (fun _ : Fin 1 => (1 : ℝ)) [0] cState1 _ rfl⟩

/-! ## C10: the Hopfield loop pulses each mirrored device twice -/

theorem pulseSame_one (n : ℤ) : pulseSame 1 n = n + 1 := by
  rw [pulseSame, if_pos (by norm_num : (0 : ℝ) < 1)]

/-- Effect of one loop iteration on one device of the count matrix: the
device at `c` is advanced by one exactly when the visited pair `p` is
off-diagonal and `c` is `p` or its mirror. -/
theorem hopBody_mem {N : ℕ} (st : (Fin N → Fin N → ℝ) × (Fin N → Fin N → ℤ))
    (p c : Fin N × Fin N) :
    (hopBody st p).2 c.1 c.2 = st.2 c.1 c.2 +
      (if p.2 ≠ p.1 ∧ (p = c ∨ (p.2, p.1) = c) then 1 else 0) := by
  by_cases hd : p.2 = p.1
  · rw [hopBody, if_pos hd, if_neg (fun h => h.1 hd)]
    ring
  · rw [hopBody, if_neg hd]
    simp only [upd2]
    by_cases h1 : p = c
    · have hc1 : c.1 = p.1 := by rw [← h1]
      have hc2 : c.2 = p.2 := by rw [← h1]
      have hne : ¬(c.1 = p.2 ∧ c.2 = p.1) := fun h =>
        hd (h.1.symm.trans hc1)
      rw [if_neg hne, if_pos ⟨hc1, hc2⟩, pulseSame_one,
        if_pos ⟨hd, Or.inl h1⟩, hc1, hc2]
    · by_cases h2 : (p.2, p.1) = c
      · have hc1 : c.1 = p.2 := by rw [← h2]
        have hc2 : c.2 = p.1 := by rw [← h2]
        rw [if_pos ⟨hc1, hc2⟩, if_neg (fun h => hd h.1), pulseSame_one,
          if_pos ⟨hd, Or.inr h2⟩, hc1, hc2]
      · have hne1 : ¬(c.1 = p.1 ∧ c.2 = p.2) := fun h =>
          h1 (Prod.ext_iff.mpr ⟨h.1.symm, h.2.symm⟩)
        have hne2 : ¬(c.1 = p.2 ∧ c.2 = p.1) := fun h =>
          h2 (Prod.ext_iff.mpr ⟨h.1.symm, h.2.symm⟩)
        rw [if_neg hne2, if_neg hne1, if_neg (fun h => by
          rcases h.2 with h' | h'
          · exact h1 h'
          · exact h2 h')]
        ring

/-- Effect of the whole loop on one device of the count matrix: the device
at `c` is advanced by the number of visited off-diagonal pairs equal to `c`
or to its mirror. -/
theorem hopFold_mem {N : ℕ} (L : List (Fin N × Fin N))
    (W : Fin N → Fin N → ℝ) (M : Fin N → Fin N → ℤ) (c : Fin N × Fin N) :
    (L.foldl hopBody (W, M)).2 c.1 c.2 = M c.1 c.2 +
      (L.countP fun p => decide (p.2 ≠ p.1 ∧ (p = c ∨ (p.2, p.1) = c)) : ℕ) := by
  induction L generalizing W M with
  | nil => simp
  | cons p rest ih =>
    rw [List.foldl_cons, List.countP_cons]
    have h := ih (hopBody (W, M) p).1 (hopBody (W, M) p).2
    rw [Prod.mk.eta] at h
    rw [h, hopBody_mem (W, M) p c]
    by_cases hc : p.2 ≠ p.1 ∧ (p = c ∨ (p.2, p.1) = c)
    · rw [if_pos hc, decide_eq_true hc, if_pos rfl]
      push_cast
      ring
    · rw [if_neg hc, decide_eq_false hc, if_neg Bool.false_ne_true]
      push_cast
      ring

/-- Splitting a two-point membership count. -/
theorem countP_eq_count_add_count {α : Type} [DecidableEq α] (x y : α)
    (hxy : x ≠ y) (L : List α) :
    (L.countP fun a => decide (a = x) || decide (a = y)) =
      L.count x + L.count y := by
  induction L with
  | nil => simp
  | cons a t ih =>
    rw [List.countP_cons, List.count_cons, List.count_cons, ih]
    by_cases hax : a = x
    · subst hax
      simp [hxy]
      omega
    · by_cases hay : a = y
      · subst hay
        simp [hax]
        omega
      · simp [hax, hay]

theorem allPairs_nodup (N : ℕ) : (allPairs N).Nodup :=
  (List.nodup_finRange N).product (List.nodup_finRange N)

theorem mem_allPairs {N : ℕ} (p : Fin N × Fin N) : p ∈ allPairs N := by
  rw [allPairs, ← Prod.mk.eta (p := p), List.mem_product]
  exact ⟨List.mem_finRange _, List.mem_finRange _⟩

/-- In a step in which neurons `i` and `j` with `i ≠ j` both spike, the
loop's visited-pair list contains exactly two pairs that advance the device
at `(j, i)`: the visit of `(j, i)` itself and the mirrored write performed
while visiting `(i, j)`. -/
theorem hopPairs_two {N : ℕ} (act : Fin N → ℝ) (i j : Fin N) (hij : i ≠ j)
    (hi : rint (act i) ≠ 0) (hj : rint (act j) ≠ 0) :
    ((hopPairs act).countP fun p =>
      decide (p.2 ≠ p.1 ∧ (p = (j, i) ∨ (p.2, p.1) = (j, i)))) = 2 := by
  rw [hopPairs, List.countP_filter]
  rw [List.countP_congr (q := fun p => decide (p = (j, i)) || decide (p = (i, j)))]
  · rw [countP_eq_count_add_count (j, i) (i, j)
      (fun h => hij (congrArg Prod.snd h)) (allPairs N),
      List.count_eq_one_of_mem (allPairs_nodup N) (mem_allPairs (j, i)),
      List.count_eq_one_of_mem (allPairs_nodup N) (mem_allPairs (i, j))]
  · intro p _
    simp only [Bool.and_eq_true, Bool.or_eq_true, decide_eq_true_eq]
    constructor
    · rintro ⟨⟨hne, hor⟩, hsp⟩
      rcases hor with h | h
      · exact Or.inl h
      · right
        have h1 : p.2 = j := congrArg Prod.fst h
        have h2 : p.1 = i := congrArg Prod.snd h
        exact Prod.ext h2 h1
    · rintro (h | h)
      · subst h
        exact ⟨⟨fun hh => hij hh, Or.inl rfl⟩, hi, hj⟩
      · subst h
        exact ⟨⟨fun hh => hij hh.symm, Or.inr rfl⟩, hj, hi⟩

/-- **C10.**  For the Hebbian-symmetric rule, in every step in which neurons
`i` and `j` with `i ≠ j` both spike, each of the mirrored devices `(j, i)`
and `(i, j)` receives exactly two pulses in that step — once when the loop
visits `(j, i)` and once when it visits `(i, j)` — so each device state is
advanced by exactly `2`, not `1`. -/
theorem C10_hopfield_double_pulse {N : ℕ} (act : Fin N → ℝ)
    (st : RuleState N N) (i j : Fin N) (hij : i ≠ j)
    (hi : rint (act i) ≠ 0) (hj : rint (act j) ≠ 0) :
    (hopStep act st).1.memristors j i = st.memristors j i + 2 ∧
    (hopStep act st).1.memristors i j = st.memristors i j + 2 := by
  constructor
  · have h := hopFold_mem (hopPairs act) st.weights st.memristors (j, i)
    rw [hopPairs_two act i j hij hi hj] at h
    show ((hopPairs act).foldl hopBody (st.weights, st.memristors)).2 j i = _
    rw [h]
    norm_num
  · have h := hopFold_mem (hopPairs act) st.weights st.memristors (i, j)
    rw [hopPairs_two act j i hij.symm hj hi] at h
    show ((hopPairs act).foldl hopBody (st.weights, st.memristors)).2 i j = _
    rw [h]
    norm_num

/-- **C10, witness.**  Both mirrored devices of a concrete 2×2 crossbar with
both neurons spiking advance by exactly two counts in one step. -/
theorem C10_witness :
    (hopStep (fun _ : Fin 2 => (1 : ℝ)) cState2).1.memristors 1 0 =
      cState2.memristors 1 0 + 2 ∧
    (hopStep (fun _ : Fin 2 => (1 : ℝ)) cState2).1.memristors 0 1 =
      cState2.memristors 0 1 + 2 :=
  C10_hopfield_double_pulse (fun _ : Fin 2 => (1 : ℝ)) cState2 0 1
    (by decide)
    (by show rint (1 : ℝ) ≠ 0; rw [rint_one]; norm_num)
    (by show rint (1 : ℝ) ≠ 0; rw [rint_one]; norm_num)

end Memristors
